import Mathlib

/-!
# Verification of the quoth index-maintenance engine

A shallow embedding of the quote-archive program's core (`src/quoth/database.rs`,
`src/utils.rs`, `src/quoth/quotes.rs`) together with proofs about its claims.

Modelling conventions:
* Byte strings and UTF-8 strings are both modelled as `List Nat` (a string is
  identified with the list of its Unicode scalar values; UTF-8 encoding is
  injective, and all key comparisons in the source are exact byte comparisons).
* `usize` is modelled as `Nat` (the identifiers are small monotone counters;
  no arithmetic in the modelled code can overflow 64 bits in practice).
* The `sled` trees are modelled as association lists `List (key, value)` with
  exact-key lookup/insert/remove; `sled`'s only additional behaviour used by
  the code is the registered merge operator, modelled by `tmerge`.
* Serialization of a `Quote` record to bytes (serde JSON) is injective and
  round-trips, so the quote tree stores `Quote` values directly, keyed by the
  numeric identifier (the source keys it by the decimal string of the
  identifier, an injective image of the identifier).
* Failure paths that can only be caused by the store layer (sled I/O errors)
  or by invalid UTF-8 (impossible here since strings are lists of scalar
  values) are dropped; application-level failures (`QuothError`) and integer
  parse failures are kept.
-/

namespace Quoth

/-- A byte/character string, as its list of code points. -/
abbrev Str := List Nat

/-- `config::SEMICOLON`: the delimiter byte used to join index lists. -/
def semicolon : Nat := 59

/-! ## Index codec (`src/utils.rs`) -/

/-- Helper for `split_on_semicolon`: accumulates the current chunk (reversed). -/
def splitSemiAux : List Nat → List Nat → List (List Nat)
  | [], acc => [acc.reverse]
  | c :: cs, acc =>
    if c = semicolon then acc.reverse :: splitSemiAux cs []
    else splitSemiAux cs (c :: acc)

/-- Rust's `str::split(';')`: splits on every semicolon, keeping empty chunks
(so the empty string splits into one empty chunk). -/
def split_on_semicolon (s : Str) : List Str := splitSemiAux s []

/-- `utils::split_values_string`: splits a byte array by semicolon into strings.
(The only failure path in the source is invalid UTF-8, impossible in the model.) -/
def split_values_string (s : Str) : List Str := split_on_semicolon s

/-- ASCII decimal digit test. -/
def is_ascii_digit (c : Nat) : Bool := 48 ≤ c && c ≤ 57

/-- Value of a most-significant-first ASCII digit string. -/
def digitsToNat (s : List Nat) : Nat := s.foldl (fun a c => a * 10 + (c - 48)) 0

/-- Rust's `str::parse::<usize>()`: an optional leading `+` (code 43) followed
by one or more ASCII digits.  (Overflow is dropped: `usize` is modelled as
`Nat`.) -/
def parse_usize (s : Str) : Option Nat :=
  let ds := if s.head? = some 43 then s.tail else s
  if ds ≠ [] ∧ ds.all is_ascii_digit then some (digitsToNat ds) else none

/-- Collect a list of parses, failing if any single parse fails
(Rust's `collect::<Result<Vec<_>, _>>()`). -/
def traverse_parse : List Str → Option (List Nat)
  | [] => some []
  | s :: ss =>
    match parse_usize s, traverse_parse ss with
    | some n, some ns => some (n :: ns)
    | _, _ => none

/-- `utils::split_indices_usize`: splits a byte array by semicolon and parses
every chunk as a `usize`, failing if any chunk fails to parse. -/
def split_indices_usize (s : Str) : Option (List Nat) :=
  traverse_parse (split_on_semicolon s)

/-- Least-significant-first decimal digits (as ASCII codes), fuelled so the
recursion is structural; `fuel ≥ n` suffices for full expansion. -/
def natToDecGo : Nat → Nat → List Nat
  | 0, _ => []
  | _ + 1, 0 => []
  | n + 1, fuel + 1 => (48 + (n + 1) % 10) :: natToDecGo ((n + 1) / 10) fuel

/-- Least-significant-first decimal digits (as ASCII codes) of `n`; empty for 0. -/
def natToDecAux (n : Nat) : List Nat := natToDecGo n n

/-- Rust's `usize::to_string` as a byte string. -/
def nat_to_string (n : Nat) : Str :=
  if n = 0 then [48] else (natToDecAux n).reverse

/-- Rust's `Vec::join` with a single semicolon separator. -/
def join_semicolon : List Str → Str
  | [] => []
  | [x] => x
  | x :: y :: xs => x ++ semicolon :: join_semicolon (y :: xs)

/-- `utils::make_indices_string`: list of `usize` into a semicolon-joined byte
array of their decimal forms. -/
def make_indices_string (l : List Nat) : Str :=
  join_semicolon (l.map nat_to_string)

/-! ## Canonicalization (`src/utils.rs`) -/

/-- Rust's `char::is_whitespace` (the Unicode `White_Space` property). -/
def is_rust_whitespace (c : Nat) : Bool :=
  (9 ≤ c && c ≤ 13) || c = 32 || c = 133 || c = 160 || c = 5760 ||
  (8192 ≤ c && c ≤ 8202) || c = 8232 || c = 8233 || c = 8239 || c = 8287 ||
  c = 12288

/-- Rust's `char::to_ascii_uppercase`. -/
def to_ascii_uppercase (c : Nat) : Nat :=
  if 97 ≤ c ∧ c ≤ 122 then c - 32 else c

/-- Rust's `char::to_ascii_lowercase`. -/
def to_ascii_lowercase (c : Nat) : Nat :=
  if 65 ≤ c ∧ c ≤ 90 then c + 32 else c

/-- Helper for `split_whitespace`: accumulates the current word (reversed). -/
def splitWSAux : List Nat → List Nat → List (List Nat)
  | [], acc => if acc = [] then [] else [acc.reverse]
  | c :: cs, acc =>
    if is_rust_whitespace c then
      if acc = [] then splitWSAux cs []
      else acc.reverse :: splitWSAux cs []
    else splitWSAux cs (c :: acc)

/-- Rust's `str::split_whitespace`: maximal runs of non-whitespace characters. -/
def split_whitespace (s : Str) : List Str := splitWSAux s []

/-- `utils::camel_case_word`: capitalizes the first letter of a word and
lowercases the rest. -/
def camel_case_word (w : Str) : Str :=
  match w with
  | [] => []
  | c :: rest => to_ascii_uppercase c :: rest.map to_ascii_lowercase

/-- Rust's `Vec::join` with a single space separator. -/
def join_space : List Str → Str
  | [] => []
  | [x] => x
  | x :: y :: xs => x ++ 32 :: join_space (y :: xs)

/-- `utils::camel_case_phrase`: changes "caMel case Word" to "Camel Case Word". -/
def camel_case_phrase (s : Str) : Str :=
  join_space ((split_whitespace s).map camel_case_word)

/-! ## Dates and quotes (`src/quoth/quotes.rs`) -/

/-- A `chrono::DateTime<Utc>` instant, by its calendar fields; `secs` is the
time of day in seconds.  Comparison of valid instants is lexicographic. -/
structure UDateTime where
  year : Int
  month : Nat
  day : Nat
  secs : Nat
deriving DecidableEq, Repr

/-- A `chrono::Date<Utc>` calendar date. -/
structure UDate where
  year : Int
  month : Nat
  day : Nat
deriving DecidableEq, Repr

/-- `DateTime` order, `≤`. -/
def dtLe (a b : UDateTime) : Bool :=
  if a.year ≠ b.year then a.year < b.year
  else if a.month ≠ b.month then a.month < b.month
  else if a.day ≠ b.day then a.day < b.day
  else a.secs ≤ b.secs

/-- `DateTime` order, `<`. -/
def dtLt (a b : UDateTime) : Bool :=
  if a.year ≠ b.year then a.year < b.year
  else if a.month ≠ b.month then a.month < b.month
  else if a.day ≠ b.day then a.day < b.day
  else a.secs < b.secs

/-- `date().with_day(1)`: the first-of-month date of an instant.  (`with_day(1)`
always succeeds on a valid chrono date, so the source's error branch for it is
unreachable and the model is total.) -/
def monthStart (d : UDateTime) : UDate :=
  { year := d.year, month := d.month, day := 1 }

/-- The primary `Quote` record.  `author` and `book` hold the canonicalized
(camel-cased) key strings, as produced by `Quote::new`. -/
structure Quote where
  index : Nat
  book : Str
  author : Str
  tags : List Str
  date : UDateTime
  text : Str
deriving DecidableEq, Repr

/-- `Quote::in_date_range`: `from_date <= self.date && self.date < to_date`. -/
def in_date_range (q : Quote) (from_date to_date : UDateTime) : Bool :=
  dtLe from_date q.date && dtLt q.date to_date

/-! ## Association-list model of `sled` trees -/

section TreeOps

variable {K V : Type} [DecidableEq K]

/-- `sled::Tree::get`: first entry with the given key. -/
def tget : List (K × V) → K → Option V
  | [], _ => none
  | (k', v) :: rest, k => if k' = k then some v else tget rest k

/-- `sled::Tree::insert`: overwrite the value at a key (in place), or append. -/
def tinsert : List (K × V) → K → V → List (K × V)
  | [], k, v => [(k, v)]
  | (k', v') :: rest, k, v =>
    if k' = k then (k, v) :: rest else (k', v') :: tinsert rest k v

/-- `sled::Tree::remove`: drop the entry with the given key. -/
def tremove (t : List (K × V)) (k : K) : List (K × V) :=
  t.filter (fun p => p.1 ≠ k)

end TreeOps

/-- `database::merge_index`: if the key exists, join the old value and the new
index with a semicolon; an empty (or absent) old value yields just the new one. -/
def merge_index (old_indices : Option Str) (new_index : Str) : Str :=
  let ret := match old_indices with
    | some old => old
    | none => []
  (if ret = [] then ret else ret ++ [semicolon]) ++ new_index

/-- `sled::Tree::merge` with the registered `merge_index` operator. -/
def tmerge (t : List (Str × Str)) (k : Str) (v : Str) : List (Str × Str) :=
  tinsert t k (merge_index (tget t k) v)

/-- One queued `sled::Batch` operation: `none` removes the key, `some v`
inserts `v` at the key. -/
abbrev BatchOp := Str × Option Str

/-- `sled::Tree::apply_batch`: apply queued operations in order. -/
def apply_batch (t : List (Str × Str)) (b : List BatchOp) : List (Str × Str) :=
  b.foldl (fun t p => match p.2 with
    | none => tremove t p.1
    | some v => tinsert t p.1 v) t

section ExceptDecEq

variable {E A : Type} [DecidableEq E] [DecidableEq A]

instance : DecidableEq (Except E A) := fun a b =>
  match a, b with
  | .error e, .error e' =>
    if h : e = e' then isTrue (by rw [h]) else
      isFalse (fun hh => h (by cases hh; rfl))
  | .error _, .ok _ => isFalse (fun hh => by cases hh)
  | .ok _, .error _ => isFalse (fun hh => by cases hh)
  | .ok v, .ok v' =>
    if h : v = v' then isTrue (by rw [h]) else
      isFalse (fun hh => h (by cases hh; rfl))

end ExceptDecEq

/-! ## Errors (`src/errors.rs`) -/

/-- `QuothError` (the variants reachable from the modelled operations), plus
`ParseFailure` standing for a propagated `std` integer-parse error (the source
surfaces it through `anyhow` rather than as a `QuothError`). -/
inductive QuothError where
  | AuthorNotFound (author : Str)
  | QuoteNotFound (index : Nat)
  | BookNotFound (book : Str)
  | TagNotFound (tag : Str)
  | ParseFailure
deriving DecidableEq, Repr

/-! ## The `Trees` store (`src/quoth/database.rs`) -/

/-- `database::Trees`: the record store, the five index trees, and the
identifier counter (stored in the source as a decimal string under the
`quote_index` key of the main tree, absent meaning 0). -/
structure Trees where
  quote_tree : List (Nat × Quote)
  author_quote : List (Str × Str)
  author_book : List (Str × Str)
  book_quote : List (Str × Str)
  book_author : List (Str × Str)
  tag_quote : List (Str × Str)
  quote_index : Nat
deriving DecidableEq, Repr

/-- The empty store (all trees empty, counter at 0). -/
def emptyTrees : Trees :=
  { quote_tree := [], author_quote := [], author_book := [], book_quote := [],
    book_author := [], tag_quote := [], quote_index := 0 }

/-- `Trees::add_author_and_book`. -/
def add_author_and_book (st : Trees) (author_key book_key : Str) (index : Nat) :
    Trees :=
  let ik := nat_to_string index
  let st1 := { st with author_quote := tmerge st.author_quote author_key ik }
  let st2 :=
    match tget st1.author_book author_key with
    | some books =>
      if book_key ∈ split_values_string books then st1
      else { st1 with author_book := tmerge st1.author_book author_key book_key }
    | none => { st1 with author_book := tinsert st1.author_book author_key book_key }
  let st3 := { st2 with book_quote := tmerge st2.book_quote book_key ik }
  { st3 with book_author := tinsert st3.book_author book_key author_key }

/-- `Trees::get_quote`. -/
def get_quote (st : Trees) (index : Nat) : Except QuothError Quote :=
  match tget st.quote_tree index with
  | some q => .ok q
  | none => .error (.QuoteNotFound index)

/-- `Trees::add_quote`: inserts the record (overwriting any existing entry at
that key), links author/book/tags, and advances the counter.  The source's
only failure paths are store-layer errors, so the model is total. -/
def add_quote (st : Trees) (q : Quote) : Trees × Nat :=
  let st1 := { st with quote_tree := tinsert st.quote_tree q.index q }
  let st2 := add_author_and_book st1 q.author q.book q.index
  let st3 := { st2 with
    tag_quote := q.tags.foldl (fun t tag => tmerge t tag (nat_to_string q.index))
      st2.tag_quote }
  ({ st3 with quote_index := st3.quote_index + 1 }, q.index)

/-- `Trees::delete_author`: removes the author's quote list, every book of the
author from both book trees, then the author's book list. -/
def delete_author (st : Trees) (author_key : Str) : Except QuothError Trees :=
  let st1 := { st with author_quote := tremove st.author_quote author_key }
  match tget st1.author_book author_key with
  | none => .error (.AuthorNotFound author_key)
  | some books_v =>
    let books := split_values_string books_v
    let st2 := { st1 with
      book_quote := books.foldl (fun t b => tremove t b) st1.book_quote,
      book_author := books.foldl (fun t b => tremove t b) st1.book_author }
    .ok { st2 with author_book := tremove st2.author_book author_key }

/-- `Trees::delete_from_tag`: queue the removal of `index` from one tag's list
onto a batch (reading the tree as it was before the batch is applied). -/
def delete_from_tag (tag_tree : List (Str × Str)) (tag_key : Str) (index : Nat)
    (batch : List BatchOp) : Except QuothError (List BatchOp) :=
  match tget tag_tree tag_key with
  | none => .error (.TagNotFound tag_key)
  | some v =>
    match split_indices_usize v with
    | none => .error .ParseFailure
    | some ids =>
      if ids.filter (fun j => j ≠ index) = [] then
        .ok (batch ++ [(tag_key, none)])
      else
        .ok (batch ++
          [(tag_key, some (make_indices_string (ids.filter (fun j => j ≠ index))))])

/-- `Trees::delete_from_book`: remove `index` from one book's list, dropping
the book from both book trees if the list empties. -/
def delete_from_book (st : Trees) (book_key : Str) (index : Nat) :
    Except QuothError Trees :=
  match tget st.book_quote book_key with
  | none => .error (.BookNotFound book_key)
  | some v =>
    match split_indices_usize v with
    | none => .error .ParseFailure
    | some ids =>
      if ids.filter (fun j => j ≠ index) = [] then
        .ok { st with book_quote := tremove st.book_quote book_key,
                      book_author := tremove st.book_author book_key }
      else
        .ok { st with
          book_quote := tinsert st.book_quote book_key
            (make_indices_string (ids.filter (fun j => j ≠ index))) }

/-- `Trees::delete_from_author_and_book`: remove `index` from the author's
list; cascade to `delete_author` if it empties, otherwise update the author's
list and remove the index from the book's list. -/
def delete_from_author_and_book (st : Trees) (author_key book_key : Str)
    (index : Nat) : Except QuothError Trees :=
  match tget st.author_quote author_key with
  | none => .error (.AuthorNotFound author_key)
  | some v =>
    match split_indices_usize v with
    | none => .error .ParseFailure
    | some ids =>
      if ids.filter (fun j => j ≠ index) = [] then delete_author st author_key
      else
        delete_from_book
          { st with
            author_quote := tinsert st.author_quote author_key
              (make_indices_string (ids.filter (fun j => j ≠ index))) }
          book_key index

/-- `Trees::remove_quote`: remove and return the record. -/
def remove_quote (st : Trees) (index : Nat) : Except QuothError (Trees × Quote) :=
  match tget st.quote_tree index with
  | none => .error (.QuoteNotFound index)
  | some q => .ok ({ st with quote_tree := tremove st.quote_tree index }, q)

/-- Queue the tag-list removals for all of a quote's tags, reading the tag
tree as it was before the batch is applied (as the source's loop does). -/
def build_tag_batch (tag_tree : List (Str × Str)) (tags : List Str) (index : Nat)
    (batch : List BatchOp) : Except QuothError (List BatchOp) :=
  match tags with
  | [] => .ok batch
  | tag :: rest =>
    match delete_from_tag tag_tree tag index batch with
    | .error e => .error e
    | .ok batch1 => build_tag_batch tag_tree rest index batch1

/-- `Trees::delete_quote`. -/
def delete_quote (st : Trees) (index : Nat) : Except QuothError Trees :=
  match remove_quote st index with
  | .error e => .error e
  | .ok (st1, q) =>
    match delete_from_author_and_book st1 q.author q.book index with
    | .error e => .error e
    | .ok st2 =>
      match build_tag_batch st2.tag_quote q.tags index [] with
      | .error e => .error e
      | .ok batch => .ok { st2 with tag_quote := apply_batch st2.tag_quote batch }

/-- `Trees::change_quote`: unindex the old quote (without removing the record),
re-index the new one under the same identifier, then overwrite the record.
No re-sorting happens: the source's `set_sorted` helper has no caller. -/
def change_quote (st : Trees) (index : Nat) (new_quote : Quote) :
    Except QuothError Trees :=
  match get_quote st index with
  | .error e => .error e
  | .ok old_quote =>
    match delete_from_author_and_book st old_quote.author old_quote.book index with
    | .error e => .error e
    | .ok st1 =>
      match build_tag_batch st1.tag_quote old_quote.tags index [] with
      | .error e => .error e
      | .ok batch =>
        let st2 := { st1 with tag_quote := apply_batch st1.tag_quote batch }
        let st3 := add_author_and_book st2 new_quote.author new_quote.book index
        let st4 := { st3 with
          tag_quote := new_quote.tags.foldl
            (fun t tag => tmerge t tag (nat_to_string index)) st3.tag_quote }
        .ok { st4 with quote_tree := tinsert st4.quote_tree index new_quote }

/-- `Trees::get_author_quotes`: looks up the camel-cased author key. -/
def get_author_quotes (st : Trees) (author : Str) : Except QuothError (List Nat) :=
  match tget st.author_quote (camel_case_phrase author) with
  | none => .error (.AuthorNotFound author)
  | some v =>
    match split_indices_usize v with
    | none => .error .ParseFailure
    | some l => .ok l

/-- `Trees::get_book_quotes`: looks up the camel-cased book key. -/
def get_book_quotes (st : Trees) (book : Str) : Except QuothError (List Nat) :=
  match tget st.book_quote (camel_case_phrase book) with
  | none => .error (.BookNotFound book)
  | some v =>
    match split_indices_usize v with
    | none => .error .ParseFailure
    | some l => .ok l

/-- `Trees::get_tag_quotes`: looks up the tag key verbatim (no
canonicalization). -/
def get_tag_quotes (st : Trees) (tag : Str) : Except QuothError (List Nat) :=
  match tget st.tag_quote tag with
  | none => .error (.TagNotFound tag)
  | some v =>
    match split_indices_usize v with
    | none => .error .ParseFailure
    | some l => .ok l

/-- `Trees::list_quotes_in_date_range`: all stored quotes whose date lies in
the half-open range. -/
def list_quotes_in_date_range (st : Trees) (from_date to_date : UDateTime) :
    List Quote :=
  (st.quote_tree.map (fun p => p.2)).filter
    (fun q => in_date_range q from_date to_date)

/-- `HashMap::entry(k).or_insert(0) += 1`. -/
def bump {K : Type} [DecidableEq K] (m : List (K × Nat)) (k : K) : List (K × Nat) :=
  match tget m k with
  | some c => tinsert m k (c + 1)
  | none => tinsert m k 1

/-- `Trees::get_quote_and_book_counts_per_month`: one pass over the in-range
quotes accumulating (quote-count per month-start, last month-start per book),
then a pass over the per-book months accumulating book counts. -/
def get_quote_and_book_counts_per_month (st : Trees)
    (from_date to_date : UDateTime) :
    List (UDate × Nat) × List (UDate × Nat) :=
  let quotes := list_quotes_in_date_range st from_date to_date
  let acc := quotes.foldl
    (fun (p : List (UDate × Nat) × List (Str × UDate)) q =>
      (bump p.1 (monthStart q.date), tinsert p.2 q.book (monthStart q.date)))
    ([], [])
  let book_counts := acc.2.foldl (fun m p => bump m p.2) []
  (acc.1, book_counts)

/-- The per-author quote counts from the author-quote tree (the second
iteration inside `Trees::get_author_counts`), failing on a corrupt value. -/
def author_quote_counts : List (Str × Str) → Except QuothError (List (Str × Nat))
  | [] => .ok []
  | (a, v) :: rest =>
    match split_indices_usize v with
    | none => .error .ParseFailure
    | some q =>
      match author_quote_counts rest with
      | .error e => .error e
      | .ok tail => .ok ((a, q.length) :: tail)

/-- `Trees::get_author_counts`: book and quote counts per author.  The result
is keyed by the authors of the author-quote tree; the book count defaults to 0
when the author has no author-book entry. -/
def get_author_counts (st : Trees) :
    Except QuothError (List (Str × (Nat × Nat))) :=
  let author_books : List (Str × Nat) :=
    st.author_book.map (fun p => (p.1, (split_values_string p.2).length))
  match author_quote_counts st.author_quote with
  | .error e => .error e
  | .ok author_quotes =>
    .ok (author_quotes.map (fun p =>
      (p.1, ((tget author_books p.1).getD 0, p.2))))

/-! ## Lemmas about the association-list tree operations -/

section TreeLemmas

variable {K V : Type} [DecidableEq K]

theorem tget_cons (p : K × V) (rest : List (K × V)) (k : K) :
    tget (p :: rest) k = if p.1 = k then some p.2 else tget rest k := rfl

theorem tget_tinsert_self (t : List (K × V)) (k : K) (v : V) :
    tget (tinsert t k v) k = some v := by
  induction t with
  | nil => simp [tinsert, tget]
  | cons p rest ih =>
    by_cases h : p.1 = k
    · simp [tinsert, h, tget]
    · simp [tinsert, h, tget_cons, ih]

theorem tget_tinsert_ne (t : List (K × V)) (k k' : K) (v : V) (h : k' ≠ k) :
    tget (tinsert t k v) k' = tget t k' := by
  have hk : k ≠ k' := Ne.symm h
  induction t with
  | nil => simp [tinsert, tget, hk]
  | cons p rest ih =>
    by_cases hp : p.1 = k
    · have hp' : p.1 ≠ k' := hp ▸ hk
      simp [tinsert, hp, tget_cons, hk, hp']
    · simp only [tinsert, if_neg hp, tget_cons, ih]

theorem tget_tremove_self (t : List (K × V)) (k : K) :
    tget (tremove t k) k = none := by
  induction t with
  | nil => simp [tremove, tget]
  | cons p rest ih =>
    by_cases h : p.1 = k
    · simpa [tremove, List.filter_cons, h] using ih
    · simpa [tremove, List.filter_cons, h, tget_cons] using ih

theorem tget_tremove_ne (t : List (K × V)) (k k' : K) (h : k' ≠ k) :
    tget (tremove t k) k' = tget t k' := by
  induction t with
  | nil => simp [tremove, tget]
  | cons p rest ih =>
    by_cases hp : p.1 = k
    · have hp' : p.1 ≠ k' := fun he => h (he ▸ hp)
      have hdrop : tremove (p :: rest) k = tremove rest k := by
        simp [tremove, List.filter_cons, hp]
      rw [hdrop, tget_cons, if_neg hp']
      exact ih
    · have hkeep : tremove (p :: rest) k = p :: tremove rest k := by
        simp [tremove, List.filter_cons, hp]
      rw [hkeep, tget_cons, tget_cons, ih]

theorem tget_eq_none_iff (t : List (K × V)) (k : K) :
    tget t k = none ↔ ∀ p ∈ t, p.1 ≠ k := by
  induction t with
  | nil => simp [tget]
  | cons p rest ih =>
    by_cases h : p.1 = k
    · simp [tget_cons, h]
    · simp [tget_cons, h, ih]

theorem mem_tinsert (t : List (K × V)) (k : K) (v : V) (p : K × V)
    (hp : p ∈ tinsert t k v) : p = (k, v) ∨ p ∈ t := by
  induction t with
  | nil => simpa [tinsert] using hp
  | cons q rest ih =>
    by_cases h : q.1 = k
    · simp only [tinsert, if_pos h, List.mem_cons] at hp
      rcases hp with hp | hp
      · exact Or.inl hp
      · exact Or.inr (List.mem_cons_of_mem _ hp)
    · simp only [tinsert, if_neg h, List.mem_cons] at hp
      rcases hp with hp | hp
      · exact Or.inr (hp ▸ List.mem_cons_self _ _)
      · rcases ih hp with hh | hh
        · exact Or.inl hh
        · exact Or.inr (List.mem_cons_of_mem _ hh)

theorem mem_tremove (t : List (K × V)) (k : K) (p : K × V)
    (hp : p ∈ tremove t k) : p ∈ t :=
  List.mem_of_mem_filter hp

theorem tget_foldl_tremove_none (ks : List K) (t : List (K × V)) (b : K)
    (h : tget t b = none) : tget (ks.foldl (fun t k => tremove t k) t) b = none := by
  induction ks generalizing t with
  | nil => exact h
  | cons k rest ih =>
    simp only [List.foldl_cons]
    apply ih
    by_cases hk : b = k
    · simpa [hk] using tget_tremove_self t k
    · rw [tget_tremove_ne t k b hk]; exact h

theorem tget_foldl_tremove_mem (ks : List K) (t : List (K × V)) (b : K)
    (h : b ∈ ks) : tget (ks.foldl (fun t k => tremove t k) t) b = none := by
  induction ks generalizing t with
  | nil => cases h
  | cons k rest ih =>
    simp only [List.foldl_cons]
    rcases List.mem_cons.mp h with h | h
    · exact tget_foldl_tremove_none rest _ b (h ▸ tget_tremove_self t k)
    · exact ih _ h

end TreeLemmas

/-! ## Lemmas about the index codec -/

theorem natToDecGo_digits (fuel : Nat) :
    ∀ n, n ≤ fuel → ∀ c ∈ natToDecGo n fuel, is_ascii_digit c = true := by
  induction fuel with
  | zero =>
    intro n hn c hc
    have h0 : n = 0 := Nat.le_zero.mp hn
    subst h0
    simp [natToDecGo] at hc
  | succ f ih =>
    intro n hn c hc
    match n, hn, hc with
    | 0, _, hc => simp [natToDecGo] at hc
    | m + 1, hn, hc =>
      rw [show natToDecGo (m + 1) (f + 1) =
        (48 + (m + 1) % 10) :: natToDecGo ((m + 1) / 10) f from rfl] at hc
      rcases List.mem_cons.mp hc with hc | hc
      · subst hc
        simp only [is_ascii_digit, Bool.and_eq_true, decide_eq_true_eq]
        omega
      · exact ih ((m + 1) / 10) (by omega) c hc

/-- All characters produced by `natToDecAux` are ASCII digits. -/
theorem natToDecAux_digits (n : Nat) :
    ∀ c ∈ natToDecAux n, is_ascii_digit c = true :=
  natToDecGo_digits n n (Nat.le_refl n)

/-- Value of a least-significant-first digit string. -/
def valAux : List Nat → Nat
  | [] => 0
  | c :: cs => (c - 48) + 10 * valAux cs

theorem natToDecGo_val (fuel : Nat) :
    ∀ n, n ≤ fuel → valAux (natToDecGo n fuel) = n := by
  induction fuel with
  | zero =>
    intro n hn
    have h0 : n = 0 := Nat.le_zero.mp hn
    subst h0
    rfl
  | succ f ih =>
    intro n hn
    match n, hn with
    | 0, _ => rfl
    | m + 1, hn =>
      rw [show natToDecGo (m + 1) (f + 1) =
        (48 + (m + 1) % 10) :: natToDecGo ((m + 1) / 10) f from rfl]
      simp only [valAux]
      rw [ih ((m + 1) / 10) (by omega)]
      omega

theorem valAux_natToDecAux (n : Nat) : valAux (natToDecAux n) = n :=
  natToDecGo_val n n (Nat.le_refl n)

theorem foldr_valAux (l : List Nat) :
    l.foldr (fun c a => a * 10 + (c - 48)) 0 = valAux l := by
  induction l with
  | nil => rfl
  | cons c cs ih => simp [List.foldr_cons, ih, valAux]; ring

theorem digitsToNat_reverse (l : List Nat) :
    digitsToNat l.reverse = valAux l := by
  rw [digitsToNat, List.foldl_reverse, foldr_valAux]

theorem nat_to_string_digits (n : Nat) :
    ∀ c ∈ nat_to_string n, is_ascii_digit c = true := by
  intro c hc
  rw [nat_to_string] at hc
  by_cases h : n = 0
  · simp [h] at hc; simp [hc, is_ascii_digit]
  · rw [if_neg h, List.mem_reverse] at hc
    exact natToDecAux_digits n c hc

theorem nat_to_string_ne_nil (n : Nat) : nat_to_string n ≠ [] := by
  rw [nat_to_string]
  by_cases h : n = 0
  · simp [h]
  · rw [if_neg h]
    match n, h with
    | m + 1, _ =>
      rw [show natToDecAux (m + 1) =
        (48 + (m + 1) % 10) :: natToDecGo ((m + 1) / 10) m from rfl]
      simp

/-- `nat_to_string` never produces the digits most-significant-first with a
leading `+`: reversing the auxiliary digits gives the printed form. -/
theorem nat_to_string_eq (n : Nat) (h : n ≠ 0) :
    nat_to_string n = (natToDecAux n).reverse := by
  rw [nat_to_string, if_neg h]

/-- `parse ∘ to_string = id` on `Nat`. -/
theorem parse_usize_nat_to_string (n : Nat) :
    parse_usize (nat_to_string n) = some n := by
  obtain ⟨c, cs, hs⟩ : ∃ c cs, nat_to_string n = c :: cs := by
    cases h : nat_to_string n with
    | nil => exact absurd h (nat_to_string_ne_nil n)
    | cons c cs => exact ⟨c, cs, rfl⟩
  have hdig : ∀ d ∈ nat_to_string n, is_ascii_digit d = true := nat_to_string_digits n
  have hc : c ≠ 43 := by
    have := hdig c (hs ▸ List.mem_cons_self _ _)
    simp only [is_ascii_digit, Bool.and_eq_true, decide_eq_true_eq] at this
    omega
  rw [parse_usize, hs]
  have hplus : ((c :: cs : Str).head? = some 43) = False := by
    simp [List.head?, hc]
  simp only [hplus, if_false]
  have hne : (c :: cs : Str) ≠ [] := by simp
  have hall : (c :: cs : Str).all is_ascii_digit = true := by
    rw [List.all_eq_true]
    intro d hd
    exact hdig d (hs ▸ hd)
  rw [if_pos ⟨hne, hall⟩]
  congr 1
  rw [← hs]
  by_cases h0 : n = 0
  · subst h0; rfl
  · rw [nat_to_string_eq n h0, digitsToNat_reverse, valAux_natToDecAux]

theorem splitSemiAux_append (x : List Nat) (r : List Nat) (acc : List Nat)
    (hx : ∀ c ∈ x, c ≠ semicolon) :
    splitSemiAux (x ++ r) acc = splitSemiAux r (x.reverse ++ acc) := by
  induction x generalizing acc with
  | nil => simp
  | cons c cs ih =>
    have hc : c ≠ semicolon := hx c (List.mem_cons_self _ _)
    have h1 : splitSemiAux (c :: (cs ++ r)) acc = splitSemiAux (cs ++ r) (c :: acc) := by
      simp [splitSemiAux, hc]
    rw [List.cons_append, h1, ih _ (fun d hd => hx d (List.mem_cons_of_mem _ hd))]
    simp

theorem split_join_semicolon (xss : List Str) (hne : xss ≠ [])
    (hfree : ∀ x ∈ xss, ∀ c ∈ x, c ≠ semicolon) :
    split_on_semicolon (join_semicolon xss) = xss := by
  induction xss with
  | nil => exact absurd rfl hne
  | cons x rest ih =>
    cases rest with
    | nil =>
      simp only [join_semicolon, split_on_semicolon]
      have h1 : splitSemiAux (x ++ []) [] = splitSemiAux [] (x.reverse ++ []) :=
        splitSemiAux_append x [] [] (hfree x (List.mem_cons_self _ _))
      rw [List.append_nil] at h1
      rw [h1]
      simp [splitSemiAux]
    | cons y rest' =>
      simp only [join_semicolon, split_on_semicolon] at *
      rw [splitSemiAux_append x _ [] (hfree x (List.mem_cons_self _ _))]
      have h2 : splitSemiAux (semicolon :: join_semicolon (y :: rest'))
          (x.reverse ++ []) = (x.reverse ++ []).reverse ::
            splitSemiAux (join_semicolon (y :: rest')) [] := by
        simp [splitSemiAux]
      rw [h2, ih (by simp) (fun z hz => hfree z (List.mem_cons_of_mem _ hz))]
      simp

theorem nat_to_string_no_semicolon (n : Nat) :
    ∀ c ∈ nat_to_string n, c ≠ semicolon := by
  intro c hc
  have := nat_to_string_digits n c hc
  simp only [is_ascii_digit, Bool.and_eq_true, decide_eq_true_eq] at this
  simp only [semicolon]
  omega

theorem traverse_parse_map_nat_to_string (l : List Nat) :
    traverse_parse (l.map nat_to_string) = some l := by
  induction l with
  | nil => rfl
  | cons n rest ih =>
    simp only [List.map_cons, traverse_parse, parse_usize_nat_to_string, ih]

/-- C3 (amended): decoding inverts encoding for every non-empty sequence of
identifiers, duplicates included. -/
theorem decode_encode_roundtrip (l : List Nat) (h : l ≠ []) :
    split_indices_usize (make_indices_string l) = some l := by
  have hfree : ∀ x ∈ l.map nat_to_string, ∀ c ∈ x, c ≠ semicolon := by
    intro x hx c hc
    obtain ⟨n, _, hn⟩ := List.mem_map.mp hx
    exact nat_to_string_no_semicolon n c (hn ▸ hc)
  rw [split_indices_usize, make_indices_string,
    split_join_semicolon (l.map nat_to_string) (by simpa using h) hfree,
    traverse_parse_map_nat_to_string]

/-- Witness for the C3 round-trip theorem at a concrete input with
duplicates. -/
theorem decode_encode_roundtrip_witness :
    split_indices_usize (make_indices_string [10, 2, 2]) = some [10, 2, 2] :=
  decode_encode_roundtrip [10, 2, 2] (by decide)

/-- C3 counterexample: the empty sequence encodes to the empty byte string,
but decoding the empty byte string fails (the single empty chunk does not
parse), so `decode_ids (encode_ids [])` is not `[]`. -/
theorem decode_encode_empty_fails :
    make_indices_string [] = ([] : Str) ∧
    split_indices_usize (make_indices_string []) = none ∧
    split_indices_usize (make_indices_string []) ≠ some [] := by decide

/-! ## Lemmas about canonicalization -/

theorem splitWSAux_words (s : List Nat) (acc : List Nat)
    (hacc : ∀ c ∈ acc, is_rust_whitespace c = false) :
    ∀ w ∈ splitWSAux s acc,
      w ≠ [] ∧ ∀ c ∈ w, is_rust_whitespace c = false := by
  induction s generalizing acc with
  | nil =>
    intro w hw
    by_cases h : acc = []
    · simp [splitWSAux, h] at hw
    · simp only [splitWSAux, if_neg h, List.mem_singleton] at hw
      subst hw
      refine ⟨by simpa using h, ?_⟩
      intro c hc
      exact hacc c (List.mem_reverse.mp hc)
  | cons c cs ih =>
    intro w hw
    by_cases hws : is_rust_whitespace c
    · by_cases h : acc = []
      · simp only [splitWSAux, if_pos hws, if_pos h] at hw
        exact ih [] (by simp) w hw
      · simp only [splitWSAux, if_pos hws, if_neg h, List.mem_cons] at hw
        rcases hw with hw | hw
        · subst hw
          refine ⟨by simpa using h, ?_⟩
          intro d hd
          exact hacc d (List.mem_reverse.mp hd)
        · exact ih [] (by simp) w hw
    · simp only [splitWSAux, if_neg hws] at hw
      refine ih (c :: acc) ?_ w hw
      intro d hd
      rcases List.mem_cons.mp hd with hd | hd
      · subst hd; simpa using hws
      · exact hacc d hd

theorem split_whitespace_words (s : Str) :
    ∀ w ∈ split_whitespace s,
      w ≠ [] ∧ ∀ c ∈ w, is_rust_whitespace c = false :=
  splitWSAux_words s [] (by simp)

theorem splitWSAux_append (x : List Nat) (r : List Nat) (acc : List Nat)
    (hx : ∀ c ∈ x, is_rust_whitespace c = false) :
    splitWSAux (x ++ r) acc = splitWSAux r (x.reverse ++ acc) := by
  induction x generalizing acc with
  | nil => simp
  | cons c cs ih =>
    have hc : is_rust_whitespace c = false := hx c (List.mem_cons_self _ _)
    have h1 : splitWSAux (c :: (cs ++ r)) acc = splitWSAux (cs ++ r) (c :: acc) := by
      simp [splitWSAux, hc]
    rw [List.cons_append, h1, ih _ (fun d hd => hx d (List.mem_cons_of_mem _ hd))]
    simp

theorem space_is_whitespace : is_rust_whitespace 32 = true := by decide

theorem split_join_space (ws : List Str)
    (hw : ∀ w ∈ ws, w ≠ [] ∧ ∀ c ∈ w, is_rust_whitespace c = false) :
    split_whitespace (join_space ws) = ws := by
  induction ws with
  | nil => rfl
  | cons x rest ih =>
    cases rest with
    | nil =>
      simp only [join_space, split_whitespace]
      have h1 : splitWSAux (x ++ []) [] = splitWSAux [] (x.reverse ++ []) :=
        splitWSAux_append x [] [] (hw x (List.mem_cons_self _ _)).2
      rw [List.append_nil] at h1
      rw [h1]
      have hxne : x ≠ [] := (hw x (List.mem_cons_self _ _)).1
      have hx : x.reverse ++ [] ≠ [] := by
        rw [List.append_nil]
        intro hcontra
        exact hxne (List.reverse_eq_nil_iff.mp hcontra)
      simp only [splitWSAux, if_neg hx]
      simp
    | cons y rest' =>
      simp only [join_space, split_whitespace] at *
      rw [splitWSAux_append x _ [] (hw x (List.mem_cons_self _ _)).2]
      have hxne : x ≠ [] := (hw x (List.mem_cons_self _ _)).1
      have hx : x.reverse ++ [] ≠ [] := by
        rw [List.append_nil]
        intro hcontra
        exact hxne (List.reverse_eq_nil_iff.mp hcontra)
      have h2 : splitWSAux (32 :: join_space (y :: rest')) (x.reverse ++ []) =
          (x.reverse ++ []).reverse :: splitWSAux (join_space (y :: rest')) [] := by
        simp [splitWSAux, space_is_whitespace, hxne]
      rw [h2, ih (fun z hz => hw z (List.mem_cons_of_mem _ hz))]
      simp

theorem not_ws_of_letter (c : Nat) (h : 65 ≤ c ∧ c ≤ 122) :
    is_rust_whitespace c = false := by
  simp only [is_rust_whitespace, Bool.or_eq_false_iff, Bool.and_eq_false_iff,
    decide_eq_false_iff_not]
  omega

theorem upper_not_ws (c : Nat) (h : is_rust_whitespace c = false) :
    is_rust_whitespace (to_ascii_uppercase c) = false := by
  rw [to_ascii_uppercase]
  by_cases hc : 97 ≤ c ∧ c ≤ 122
  · rw [if_pos hc]; exact not_ws_of_letter _ (by omega)
  · rwa [if_neg hc]

theorem lower_not_ws (c : Nat) (h : is_rust_whitespace c = false) :
    is_rust_whitespace (to_ascii_lowercase c) = false := by
  rw [to_ascii_lowercase]
  by_cases hc : 65 ≤ c ∧ c ≤ 90
  · rw [if_pos hc]; exact not_ws_of_letter _ (by omega)
  · rwa [if_neg hc]

theorem upper_upper (c : Nat) :
    to_ascii_uppercase (to_ascii_uppercase c) = to_ascii_uppercase c := by
  simp only [to_ascii_uppercase]
  by_cases hc : 97 ≤ c ∧ c ≤ 122
  · rw [if_pos hc, if_neg (by omega)]
  · rw [if_neg hc, if_neg hc]

theorem lower_lower (c : Nat) :
    to_ascii_lowercase (to_ascii_lowercase c) = to_ascii_lowercase c := by
  simp only [to_ascii_lowercase]
  by_cases hc : 65 ≤ c ∧ c ≤ 90
  · rw [if_pos hc, if_neg (by omega)]
  · rw [if_neg hc, if_neg hc]

theorem camel_case_word_ne_nil (w : Str) (h : w ≠ []) :
    camel_case_word w ≠ [] := by
  cases w with
  | nil => exact absurd rfl h
  | cons c rest => simp [camel_case_word]

theorem camel_case_word_not_ws (w : Str)
    (h : ∀ c ∈ w, is_rust_whitespace c = false) :
    ∀ c ∈ camel_case_word w, is_rust_whitespace c = false := by
  cases w with
  | nil => simp [camel_case_word]
  | cons c rest =>
    intro d hd
    simp only [camel_case_word, List.mem_cons] at hd
    rcases hd with hd | hd
    · subst hd
      exact upper_not_ws c (h c (List.mem_cons_self _ _))
    · obtain ⟨e, he, hde⟩ := List.mem_map.mp hd
      subst hde
      exact lower_not_ws e (h e (List.mem_cons_of_mem _ he))

theorem camel_case_word_idem (w : Str) :
    camel_case_word (camel_case_word w) = camel_case_word w := by
  cases w with
  | nil => rfl
  | cons c rest =>
    simp only [camel_case_word, upper_upper, List.map_map]
    congr 1
    apply List.map_congr_left
    intro d _
    exact lower_lower d

/-- C8: the canonicalization transform is idempotent. -/
theorem camel_case_phrase_idem (s : Str) :
    camel_case_phrase (camel_case_phrase s) = camel_case_phrase s := by
  rw [camel_case_phrase, camel_case_phrase,
    split_join_space ((split_whitespace s).map camel_case_word) ?wordsOk]
  case wordsOk =>
    intro w hw
    obtain ⟨x, hx, hxw⟩ := List.mem_map.mp hw
    obtain ⟨hx1, hx2⟩ := split_whitespace_words s x hx
    exact hxw ▸ ⟨camel_case_word_ne_nil x hx1, camel_case_word_not_ws x hx2⟩
  rw [List.map_map]
  congr 1
  apply List.map_congr_left
  intro w _
  exact camel_case_word_idem w

/-! ## The merge function (claims C6, C2) -/

/-- C6 (amended): the store-level merge returns the addition alone when the
existing value is absent or empty, and otherwise the existing value, the
semicolon delimiter, and the addition. -/
theorem merge_index_spec (old new_index : Str) :
    merge_index none new_index = new_index ∧
    merge_index (some []) new_index = new_index ∧
    (old ≠ [] →
      merge_index (some old) new_index = old ++ semicolon :: new_index) := by
  refine ⟨rfl, rfl, ?_⟩
  intro h
  simp [merge_index, h]

/-- Witness for C6's merge characterization on a non-empty existing value. -/
theorem merge_index_spec_witness :
    merge_index (some [49]) [50] = [49] ++ semicolon :: [50] :=
  (merge_index_spec [49] [50]).2.2 (by decide)

/-- C6 counterexample: with a present-but-empty existing value the merge
returns the addition alone, not `existing ++ delimiter ++ addition`. -/
theorem merge_index_empty_existing :
    merge_index (some []) [49] = [49] ∧
    merge_index (some []) [49] ≠ ([] : Str) ++ semicolon :: [49] := by decide

/-- `add_author_and_book` performs four independent single-tree updates. -/
theorem aab_eq (st : Trees) (a b : Str) (i : Nat) :
    add_author_and_book st a b i =
      { st with
        author_quote := tmerge st.author_quote a (nat_to_string i),
        author_book :=
          match tget st.author_book a with
          | some books =>
            if b ∈ split_values_string books then st.author_book
            else tmerge st.author_book a b
          | none => tinsert st.author_book a b,
        book_quote := tmerge st.book_quote b (nat_to_string i),
        book_author := tinsert st.book_author b a } := by
  rw [add_author_and_book]
  rcases h : tget st.author_book a with _ | books
  · simp only [h]
  · simp only [h]
    by_cases hb : b ∈ split_values_string books
    · simp only [if_pos hb]
    · simp only [if_neg hb]

/-- C2 (amended): `add_quote` never fails and never checks for a duplicate
identifier: it returns the quote's identifier and (over)writes the record
at that key. -/
theorem add_quote_overwrites (st : Trees) (q : Quote) :
    (add_quote st q).2 = q.index ∧
    tget (add_quote st q).1.quote_tree q.index = some q := by
  refine ⟨rfl, ?_⟩
  rw [add_quote]
  simp only [aab_eq]
  exact tget_tinsert_self st.quote_tree q.index q

/-- Data for the C2 counterexample: a first record. -/
def c2q1 : Quote :=
  { index := 1, book := [66], author := [65], tags := [],
    date := { year := 2020, month := 1, day := 1, secs := 0 }, text := [88] }

/-- Data for the C2 counterexample: a different record reusing identifier 1. -/
def c2q2 : Quote :=
  { index := 1, book := [67], author := [68], tags := [],
    date := { year := 2020, month := 2, day := 1, secs := 0 }, text := [89] }

/-- A store that already holds identifier 1. -/
def c2st : Trees := (add_quote emptyTrees c2q1).1

/-- C2 counterexample: adding a quote whose identifier already exists as a key
in the record store does not fail with any error — `add_quote` returns
normally and the existing record is overwritten by the new one. -/
theorem add_quote_duplicate_no_error :
    tget c2st.quote_tree 1 = some c2q1 ∧
    (add_quote c2st c2q2).2 = 1 ∧
    tget (add_quote c2st c2q2).1.quote_tree 1 = some c2q2 ∧
    c2q2 ≠ c2q1 := by decide

/-! ## Tag lookups are verbatim (claim C10) -/

theorem tget_tmerge_self (t : List (Str × Str)) (k v : Str) :
    tget (tmerge t k v) k = some (merge_index (tget t k) v) :=
  tget_tinsert_self t k _

theorem tget_tmerge_ne (t : List (Str × Str)) (k k' v : Str) (h : k' ≠ k) :
    tget (tmerge t k v) k' = tget t k' :=
  tget_tinsert_ne t k k' _ h

theorem tmerge_isSome (t : List (Str × Str)) (k' v k : Str)
    (h : (tget t k).isSome = true) : (tget (tmerge t k' v) k).isSome = true := by
  by_cases hk : k = k'
  · subst hk
    rw [tget_tmerge_self]
    rfl
  · rwa [tget_tmerge_ne t k' k v hk]

theorem fold_tmerge_isSome_mono (tags : List Str) (t0 : List (Str × Str))
    (v k : Str) (h : (tget t0 k).isSome = true) :
    (tget (tags.foldl (fun t tag => tmerge t tag v) t0) k).isSome = true := by
  induction tags generalizing t0 with
  | nil => exact h
  | cons tag rest ih =>
    simp only [List.foldl_cons]
    exact ih _ (tmerge_isSome t0 tag v k h)

theorem fold_tmerge_isSome_of_mem (tags : List Str) (t0 : List (Str × Str))
    (v k : Str) (h : k ∈ tags) :
    (tget (tags.foldl (fun t tag => tmerge t tag v) t0) k).isSome = true := by
  induction tags generalizing t0 with
  | nil => cases h
  | cons tag rest ih =>
    simp only [List.foldl_cons]
    rcases List.mem_cons.mp h with h | h
    · subst h
      refine fold_tmerge_isSome_mono rest _ v k ?_
      rw [tget_tmerge_self]
      rfl
    · exact ih _ h

/-- C10: the tag query uses the query string verbatim as the index key — it
fails with `TagNotFound` whenever no stored tag key equals the query exactly
(in particular for a casing variant of a stored tag), and returns the decoded
list stored under the exact key otherwise; `add_quote` stores every tag of
the quote verbatim as a key; by contrast the author and book queries look up
the camel-case-phrase transform of their argument. -/
theorem tag_lookup_verbatim (st : Trees) (t a b : Str) :
    ((∀ p ∈ st.tag_quote, p.1 ≠ t) →
      get_tag_quotes st t = .error (.TagNotFound t)) ∧
    (∀ v l, tget st.tag_quote t = some v → split_indices_usize v = some l →
      get_tag_quotes st t = .ok l) ∧
    (∀ q : Quote, ∀ tg ∈ q.tags,
      (tget (add_quote st q).1.tag_quote tg).isSome = true) ∧
    (tget st.author_quote (camel_case_phrase a) = none →
      get_author_quotes st a = .error (.AuthorNotFound a)) ∧
    (tget st.book_quote (camel_case_phrase b) = none →
      get_book_quotes st b = .error (.BookNotFound b)) := by
  refine ⟨?_, ?_, ?_, ?_, ?_⟩
  · intro h
    rw [get_tag_quotes, (tget_eq_none_iff st.tag_quote t).mpr h]
  · intro v l hv hl
    simp only [get_tag_quotes, hv, hl]
  · intro q tg htg
    have : (add_quote st q).1.tag_quote =
        q.tags.foldl (fun t tag => tmerge t tag (nat_to_string q.index))
          st.tag_quote := by
      simp only [add_quote, aab_eq]
    rw [this]
    exact fold_tmerge_isSome_of_mem q.tags st.tag_quote _ tg htg
  · intro h
    rw [get_author_quotes, h]
  · intro h
    rw [get_book_quotes, h]

/-- A store with quote 1 under the tag "Hu" (codes 72, 117). -/
def c10st : Trees := { emptyTrees with tag_quote := [([72, 117], [49])] }

/-- Witness for C10: querying the stored tag verbatim succeeds, while the
lower-cased variant "hu" fails with `TagNotFound`. -/
theorem tag_lookup_verbatim_witness :
    get_tag_quotes c10st [104, 117] = .error (.TagNotFound [104, 117]) ∧
    get_tag_quotes c10st [72, 117] = .ok [1] := by
  constructor
  · exact (tag_lookup_verbatim c10st [104, 117] [] []).1 (by decide)
  · exact (tag_lookup_verbatim c10st [72, 117] [] []).2.1 [49] [1]
      (by decide) (by decide)

/-! ## Author counts (claim C7) -/

theorem tget_map {K V W : Type} [DecidableEq K] (f : K → V → W)
    (l : List (K × V)) (k : K) :
    tget (l.map (fun p => (p.1, f p.1 p.2))) k = (tget l k).map (f k) := by
  induction l with
  | nil => rfl
  | cons p rest ih =>
    by_cases h : p.1 = k
    · subst h
      simp [tget_cons]
    · simp [tget_cons, h, ih]

theorem author_quote_counts_tget (l : List (Str × Str))
    (r : List (Str × Nat)) (h : author_quote_counts l = .ok r) (a : Str) :
    (tget l a = none → tget r a = none) ∧
    (∀ v, tget l a = some v →
      ∃ qs, split_indices_usize v = some qs ∧ tget r a = some qs.length) := by
  induction l generalizing r with
  | nil =>
    simp only [author_quote_counts, Except.ok.injEq] at h
    subst h
    exact ⟨fun _ => rfl, fun v hv => by simp [tget] at hv⟩
  | cons p rest ih =>
    obtain ⟨a', v'⟩ := p
    rw [author_quote_counts] at h
    rcases hsp : split_indices_usize v' with _ | q
    · rw [hsp] at h; cases h
    · rw [hsp] at h
      rcases hrest : author_quote_counts rest with _ | tail
      · rw [hrest] at h; cases h
      · rw [hrest] at h
        simp only [Except.ok.injEq] at h
        subst h
        by_cases ha : a' = a
        · subst ha
          refine ⟨fun hn => by simp [tget_cons] at hn, ?_⟩
          intro v hv
          have hv' : v' = v := by simpa [tget_cons] using hv
          subst hv'
          exact ⟨q, hsp, by simp [tget_cons]⟩
        · have h1 : tget ((a', v') :: rest) a = tget rest a := by
            simp [tget_cons, ha]
          have h2 : tget ((a', q.length) :: tail) a = tget tail a := by
            simp [tget_cons, ha]
          rw [h1, h2]
          exact ih tail hrest

/-- C7 (amended): `get_author_counts` returns, for every author key present in
author→quote-ids, the pair (book-count, quote-count), where the book count is
the number of entries under that author in author→books, or 0 if the author
is absent there; authors present only in author→books are omitted from the
result. -/
theorem get_author_counts_spec (st : Trees) (m : List (Str × (Nat × Nat)))
    (h : get_author_counts st = .ok m) (a : Str) :
    (tget st.author_quote a = none → tget m a = none) ∧
    (∀ v, tget st.author_quote a = some v →
      ∃ qs, split_indices_usize v = some qs ∧
        tget m a = some
          ((match tget st.author_book a with
            | some bv => (split_values_string bv).length
            | none => 0), qs.length)) := by
  rw [get_author_counts] at h
  rcases haq : author_quote_counts st.author_quote with _ | aq
  · rw [haq] at h; cases h
  · rw [haq] at h
    simp only [Except.ok.injEq] at h
    subst h
    have hbooks : tget (st.author_book.map
        (fun p => (p.1, (split_values_string p.2).length))) a =
        (tget st.author_book a).map (fun v => (split_values_string v).length) :=
      tget_map (fun _ v => (split_values_string v).length) st.author_book a
    have hmap : tget (aq.map (fun p => (p.1,
        ((tget (st.author_book.map
          (fun p => (p.1, (split_values_string p.2).length))) p.1).getD 0,
          p.2))) ) a =
        (tget aq a).map (fun n =>
          ((tget (st.author_book.map
            (fun p => (p.1, (split_values_string p.2).length))) a).getD 0, n)) :=
      tget_map (fun k n =>
        ((tget (st.author_book.map
          (fun p => (p.1, (split_values_string p.2).length))) k).getD 0, n)) aq a
    obtain ⟨hnone, hsome⟩ := author_quote_counts_tget st.author_quote aq haq a
    constructor
    · intro hn
      rw [hmap, hnone hn]
      rfl
    · intro v hv
      obtain ⟨qs, hqs, hr⟩ := hsome v hv
      refine ⟨qs, hqs, ?_⟩
      rw [hmap, hr, hbooks]
      rcases tget st.author_book a with _ | bv
      · rfl
      · rfl

/-- A store whose author-book tree has author [65], but whose author-quote
tree is empty. -/
def c7st : Trees := { emptyTrees with author_book := [([65], [66])] }

/-- C7 counterexample: author [65] appears in author→books, yet
`get_author_counts` omits it entirely instead of reporting it with a zero
quote count. -/
theorem get_author_counts_drops_book_only_author :
    tget c7st.author_book [65] = some [66] ∧
    get_author_counts c7st = .ok [] := by decide

/-- A store with an author having one quote and no author-book entry. -/
def c7wst : Trees := { emptyTrees with author_quote := [([65], [49])] }

/-- The author-counts result for `c7wst`. -/
def c7wm : List (Str × (Nat × Nat)) := [([65], (0, 1))]

/-- Witness for C7: an author present in author→quote-ids but absent from
author→books is reported with a zero book count. -/
theorem get_author_counts_spec_witness : tget c7wm [65] = some (0, 1) := by
  obtain ⟨qs, hqs, hr⟩ :=
    (get_author_counts_spec c7wst c7wm (by decide) [65]).2 [49] (by decide)
  have hq : qs = [1] := by
    have he : split_indices_usize [49] = some [1] := by decide
    rw [he] at hqs
    exact (Option.some.inj hqs).symm
  subst hq
  exact hr

/-! ## Per-month counts (claim C9) -/

section PairFold

variable {A B C : Type}

theorem fold_pair_fst (f : A → C → A) (g : B → C → B) (l : List C) (a : A) (b : B) :
    (l.foldl (fun p c => (f p.1 c, g p.2 c)) (a, b)).1 = l.foldl f a := by
  induction l generalizing a b with
  | nil => rfl
  | cons c rest ih => simpa using ih (f a c) (g b c)

theorem fold_pair_snd (f : A → C → A) (g : B → C → B) (l : List C) (a : A) (b : B) :
    (l.foldl (fun p c => (f p.1 c, g p.2 c)) (a, b)).2 = l.foldl g b := by
  induction l generalizing a b with
  | nil => rfl
  | cons c rest ih => simpa using ih (f a c) (g b c)

end PairFold

section BumpLemmas

variable {K : Type} [DecidableEq K]

theorem tget_bump_self (m : List (K × Nat)) (k : K) :
    tget (bump m k) k = some ((tget m k).getD 0 + 1) := by
  rw [bump]
  rcases h : tget m k with _ | c
  · simpa using tget_tinsert_self m k 1
  · simpa using tget_tinsert_self m k (c + 1)

theorem tget_bump_ne (m : List (K × Nat)) (k k' : K) (h : k' ≠ k) :
    tget (bump m k) k' = tget m k' := by
  rw [bump]
  rcases tget m k with _ | c
  · exact tget_tinsert_ne m k k' 1 h
  · exact tget_tinsert_ne m k k' (c + 1) h

theorem fold_bump_count (ks : List K) (m : List (K × Nat)) (k : K) :
    (tget (ks.foldl bump m) k).getD 0 =
      (tget m k).getD 0 + (ks.filter (fun x => x = k)).length := by
  induction ks generalizing m with
  | nil => simp
  | cons x rest ih =>
    simp only [List.foldl_cons]
    by_cases hx : x = k
    · subst hx
      rw [ih (bump m x), tget_bump_self]
      have hf : ((x :: rest).filter (fun y => y = x)).length =
          (rest.filter (fun y => y = x)).length + 1 := by
        simp [List.filter_cons]
      rw [hf]
      simp only [Option.getD_some]
      omega
    · rw [ih (bump m x), tget_bump_ne m x k (fun he => hx he.symm)]
      have : ((x :: rest).filter (fun y => y = k)).length =
          (rest.filter (fun y => y = k)).length := by
        simp [List.filter_cons, hx]
      rw [this]

/-- Sum of the counter values of a map. -/
def sumValues (m : List (K × Nat)) : Nat := (m.map (fun p => p.2)).sum

theorem sum_bump (m : List (K × Nat)) (k : K) :
    sumValues (bump m k) = sumValues m + 1 := by
  induction m with
  | nil => rfl
  | cons p rest ih =>
    obtain ⟨k', c'⟩ := p
    by_cases h : k' = k
    · subst h
      simp [bump, tget_cons, tinsert, sumValues]
      omega
    · rcases hg : tget rest k with _ | c
      · have h1 : bump ((k', c') :: rest) k = (k', c') :: tinsert rest k 1 := by
          simp [bump, tget_cons, h, hg, tinsert]
        have h2 : bump rest k = tinsert rest k 1 := by simp [bump, hg]
        rw [h1]
        have := ih
        rw [h2] at this
        simp only [sumValues, List.map_cons, List.sum_cons] at *
        omega
      · have h1 : bump ((k', c') :: rest) k = (k', c') :: tinsert rest k (c + 1) := by
          simp [bump, tget_cons, h, hg, tinsert]
        have h2 : bump rest k = tinsert rest k (c + 1) := by simp [bump, hg]
        rw [h1]
        have := ih
        rw [h2] at this
        simp only [sumValues, List.map_cons, List.sum_cons] at *
        omega

theorem sum_fold_bump (ks : List K) (m : List (K × Nat)) :
    sumValues (ks.foldl bump m) = sumValues m + ks.length := by
  induction ks generalizing m with
  | nil => rfl
  | cons x rest ih =>
    simp only [List.foldl_cons, List.length_cons]
    rw [ih (bump m x), sum_bump]
    omega

end BumpLemmas

section KeysLemmas

variable {K V : Type} [DecidableEq K]

/-- The key list of an association list. -/
def keysOf (m : List (K × V)) : List K := m.map (fun p => p.1)

theorem keysOf_tinsert_toFinset (m : List (K × V)) (k : K) (v : V) :
    (keysOf (tinsert m k v)).toFinset = insert k (keysOf m).toFinset := by
  induction m with
  | nil => simp [tinsert, keysOf]
  | cons p rest ih =>
    simp only [keysOf] at ih ⊢
    by_cases h : p.1 = k
    · have ht : tinsert (p :: rest) k v = (k, v) :: rest := by
        obtain ⟨k', v'⟩ := p
        simp only [tinsert]
        rw [if_pos h]
      rw [ht]
      simp only [List.map_cons, List.toFinset_cons, h]
      rw [Finset.insert_idem]
    · simp only [tinsert, if_neg h, List.map_cons, List.toFinset_cons, ih]
      exact Finset.Insert.comm _ _ _

theorem mem_keysOf_tinsert (m : List (K × V)) (k : K) (v : V) (x : K)
    (h : x ∈ keysOf (tinsert m k v)) : x = k ∨ x ∈ keysOf m := by
  obtain ⟨p, hp, hx⟩ := List.mem_map.mp h
  rcases mem_tinsert m k v p hp with h1 | h1
  · exact Or.inl (hx ▸ h1 ▸ rfl)
  · exact Or.inr (hx ▸ List.mem_map_of_mem _ h1)

theorem keysOf_tinsert_nodup (m : List (K × V)) (k : K) (v : V)
    (h : (keysOf m).Nodup) : (keysOf (tinsert m k v)).Nodup := by
  induction m with
  | nil => simp [tinsert, keysOf]
  | cons p rest ih =>
    simp only [keysOf, List.map_cons, List.nodup_cons] at h
    by_cases hp : p.1 = k
    · simp only [tinsert, if_pos hp, keysOf, List.map_cons, List.nodup_cons]
      exact ⟨hp ▸ h.1, h.2⟩
    · simp only [tinsert, if_neg hp, keysOf, List.map_cons, List.nodup_cons]
      refine ⟨?_, ih h.2⟩
      intro hmem
      rcases mem_keysOf_tinsert rest k v p.1 hmem with h1 | h1
      · exact hp h1
      · exact h.1 h1

theorem fold_tinsert_keys_toFinset (ps : List (K × V)) (m : List (K × V)) :
    (keysOf (ps.foldl (fun m p => tinsert m p.1 p.2) m)).toFinset =
      (keysOf m).toFinset ∪ (keysOf ps).toFinset := by
  induction ps generalizing m with
  | nil => simp [keysOf]
  | cons p rest ih =>
    simp only [List.foldl_cons]
    rw [ih (tinsert m p.1 p.2), keysOf_tinsert_toFinset]
    simp only [keysOf, List.map_cons, List.toFinset_cons]
    rw [Finset.insert_union, Finset.union_insert]

theorem fold_tinsert_keys_nodup (ps : List (K × V)) (m : List (K × V))
    (h : (keysOf m).Nodup) :
    (keysOf (ps.foldl (fun m p => tinsert m p.1 p.2) m)).Nodup := by
  induction ps generalizing m with
  | nil => exact h
  | cons p rest ih =>
    simp only [List.foldl_cons]
    exact ih _ (keysOf_tinsert_nodup m p.1 p.2 h)

theorem length_eq_card_keysOf (m : List (K × V)) (h : (keysOf m).Nodup) :
    m.length = (keysOf m).toFinset.card := by
  rw [List.toFinset_card_of_nodup h, keysOf, List.length_map]

end KeysLemmas

/-- C9: over the half-open date range [from, to), the monthly quote counter
maps each month-start to the number of in-range quotes whose first-of-month
equals it, and the book counters sum to the number of distinct books among
the in-range quotes (each distinct book is counted in exactly one month). -/
theorem counts_per_month_spec (st : Trees) (f t : UDateTime) :
    (∀ q : Quote, q ∈ list_quotes_in_date_range st f t ↔
      (q ∈ st.quote_tree.map (fun p => p.2) ∧
        dtLe f q.date = true ∧ dtLt q.date t = true)) ∧
    (∀ m : UDate,
      (tget (get_quote_and_book_counts_per_month st f t).1 m).getD 0 =
        ((list_quotes_in_date_range st f t).filter
          (fun q => monthStart q.date = m)).length) ∧
    (((get_quote_and_book_counts_per_month st f t).2.map (fun p => p.2)).sum =
      ((list_quotes_in_date_range st f t).map (fun q => q.book)).dedup.length) := by
  refine ⟨?_, ?_, ?_⟩
  · intro q
    simp [list_quotes_in_date_range, List.mem_filter, in_date_range,
      Bool.and_eq_true]
  · intro m
    rw [get_quote_and_book_counts_per_month]
    simp only
    rw [fold_pair_fst
      (fun (m : List (UDate × Nat)) (q : Quote) => bump m (monthStart q.date))
      (fun (m : List (Str × UDate)) (q : Quote) =>
        tinsert m q.book (monthStart q.date))
      (list_quotes_in_date_range st f t) [] []]
    have hmap : (list_quotes_in_date_range st f t).foldl
        (fun m q => bump m (monthStart q.date)) [] =
        ((list_quotes_in_date_range st f t).map
          (fun q => monthStart q.date)).foldl bump [] := by
      rw [List.foldl_map]
    rw [hmap, fold_bump_count]
    simp only [tget, Option.getD_none, Nat.zero_add]
    rw [List.filter_map]
    simp only [List.length_map]
    rfl
  · rw [get_quote_and_book_counts_per_month]
    simp only
    rw [fold_pair_snd
      (fun (m : List (UDate × Nat)) (q : Quote) => bump m (monthStart q.date))
      (fun (m : List (Str × UDate)) (q : Quote) =>
        tinsert m q.book (monthStart q.date))
      (list_quotes_in_date_range st f t) [] []]
    have hbd : (list_quotes_in_date_range st f t).foldl
        (fun m q => tinsert m q.book (monthStart q.date)) [] =
        ((list_quotes_in_date_range st f t).map
          (fun q => (q.book, monthStart q.date))).foldl
          (fun m p => tinsert m p.1 p.2) [] := by
      rw [List.foldl_map]
    rw [hbd]
    have hsum : ∀ bd : List (Str × UDate),
        ((bd.foldl (fun m p => bump m p.2) []).map (fun p => p.2)).sum =
          bd.length := by
      intro bd
      have h1 : bd.foldl (fun m p => bump m p.2) [] =
          (bd.map (fun p => p.2)).foldl bump [] := by rw [List.foldl_map]
      have h2 := sum_fold_bump (bd.map (fun p => p.2)) ([] : List (UDate × Nat))
      rw [h1]
      simpa [sumValues] using h2
    rw [hsum]
    set L := list_quotes_in_date_range st f t with hL
    have hnodup := fold_tinsert_keys_nodup
      (L.map (fun q => (q.book, monthStart q.date))) [] (by simp [keysOf])
    rw [length_eq_card_keysOf _ hnodup, fold_tinsert_keys_toFinset]
    have hkeys : keysOf (L.map (fun q => (q.book, monthStart q.date))) =
        L.map (fun q => q.book) := by
      rw [keysOf, List.map_map]
      rfl
    rw [hkeys]
    simp [keysOf, List.card_toFinset]

/-! ## No empty-but-present index entries (claim C5) -/

/-- All values stored in the three quote-id trees are non-empty byte strings
(an empty-but-present entry would be the encoding of the empty sequence). -/
def NonEmptyVals (st : Trees) : Prop :=
  (∀ p ∈ st.author_quote, p.2 ≠ ([] : Str)) ∧
  (∀ p ∈ st.book_quote, p.2 ≠ ([] : Str)) ∧
  (∀ p ∈ st.tag_quote, p.2 ≠ ([] : Str))

theorem merge_index_ne_nil (o : Option Str) (v : Str) (hv : v ≠ []) :
    merge_index o v ≠ [] := by
  intro hc
  simp only [merge_index] at hc
  exact hv (List.append_eq_nil.mp hc).2

theorem make_indices_string_ne_nil (l : List Nat) (h : l ≠ []) :
    make_indices_string l ≠ [] := by
  cases l with
  | nil => exact absurd rfl h
  | cons n rest =>
    cases rest with
    | nil =>
      simpa [make_indices_string, join_semicolon] using nat_to_string_ne_nil n
    | cons n2 rest2 =>
      simp only [make_indices_string, List.map_cons, join_semicolon]
      intro hc
      have := (List.append_eq_nil.mp hc).2
      cases this

theorem nev_tinsert (t : List (Str × Str)) (k v : Str)
    (ht : ∀ p ∈ t, p.2 ≠ ([] : Str)) (hv : v ≠ []) :
    ∀ p ∈ tinsert t k v, p.2 ≠ ([] : Str) := by
  intro p hp
  rcases mem_tinsert t k v p hp with h | h
  · rw [h]; exact hv
  · exact ht p h

theorem nev_tremove (t : List (Str × Str)) (k : Str)
    (ht : ∀ p ∈ t, p.2 ≠ ([] : Str)) :
    ∀ p ∈ tremove t k, p.2 ≠ ([] : Str) :=
  fun p hp => ht p (mem_tremove t k p hp)

theorem nev_tmerge (t : List (Str × Str)) (k v : Str)
    (ht : ∀ p ∈ t, p.2 ≠ ([] : Str)) (hv : v ≠ []) :
    ∀ p ∈ tmerge t k v, p.2 ≠ ([] : Str) :=
  nev_tinsert t k _ ht (merge_index_ne_nil _ v hv)

theorem nev_fold_tmerge (tags : List Str) (t0 : List (Str × Str)) (i : Nat)
    (ht : ∀ p ∈ t0, p.2 ≠ ([] : Str)) :
    ∀ p ∈ tags.foldl (fun t tag => tmerge t tag (nat_to_string i)) t0,
      p.2 ≠ ([] : Str) := by
  induction tags generalizing t0 with
  | nil => exact ht
  | cons tag rest ih =>
    simp only [List.foldl_cons]
    exact ih _ (nev_tmerge t0 tag _ ht (nat_to_string_ne_nil i))

theorem nev_fold_tremove (ks : List Str) (t0 : List (Str × Str))
    (ht : ∀ p ∈ t0, p.2 ≠ ([] : Str)) :
    ∀ p ∈ ks.foldl (fun t b => tremove t b) t0, p.2 ≠ ([] : Str) := by
  induction ks generalizing t0 with
  | nil => exact ht
  | cons k rest ih =>
    simp only [List.foldl_cons]
    exact ih _ (nev_tremove t0 k ht)

/-- Every insertion queued on a batch carries a non-empty value. -/
def BatchOk (b : List BatchOp) : Prop :=
  ∀ p ∈ b, ∀ v, p.2 = some v → v ≠ ([] : Str)

theorem delete_from_tag_batch_ok (tt : List (Str × Str)) (k : Str) (i : Nat)
    (b b' : List BatchOp) (hb : BatchOk b)
    (h : delete_from_tag tt k i b = .ok b') : BatchOk b' := by
  rw [delete_from_tag] at h
  rcases hg : tget tt k with _ | v
  · simp only [hg] at h
    cases h
  · simp only [hg] at h
    rcases hs : split_indices_usize v with _ | ids
    · simp only [hs] at h
      cases h
    · simp only [hs] at h
      by_cases hf : ids.filter (fun j => j ≠ i) = []
      · rw [if_pos hf] at h
        simp only [Except.ok.injEq] at h
        subst h
        intro p hp w hw
        rcases List.mem_append.mp hp with h1 | h1
        · exact hb p h1 w hw
        · simp only [List.mem_singleton] at h1
          subst h1
          cases hw
      · rw [if_neg hf] at h
        simp only [Except.ok.injEq] at h
        subst h
        intro p hp w hw
        rcases List.mem_append.mp hp with h1 | h1
        · exact hb p h1 w hw
        · simp only [List.mem_singleton] at h1
          subst h1
          simp only at hw
          cases hw
          exact make_indices_string_ne_nil _ hf

theorem build_tag_batch_ok (tt : List (Str × Str)) (tags : List Str) (i : Nat)
    (b b' : List BatchOp) (hb : BatchOk b)
    (h : build_tag_batch tt tags i b = .ok b') : BatchOk b' := by
  induction tags generalizing b with
  | nil =>
    rw [build_tag_batch] at h
    simp only [Except.ok.injEq] at h
    subst h
    exact hb
  | cons tag rest ih =>
    rw [build_tag_batch] at h
    rcases hd : delete_from_tag tt tag i b with _ | b1
    · rw [hd] at h; cases h
    · rw [hd] at h
      exact ih b1 (delete_from_tag_batch_ok tt tag i b b1 hb hd) h

theorem nev_apply_batch (t : List (Str × Str)) (b : List BatchOp)
    (ht : ∀ p ∈ t, p.2 ≠ ([] : Str)) (hb : BatchOk b) :
    ∀ p ∈ apply_batch t b, p.2 ≠ ([] : Str) := by
  induction b generalizing t with
  | nil => exact ht
  | cons op rest ih =>
    simp only [apply_batch, List.foldl_cons]
    have hstep : ∀ p ∈ (match op.2 with
        | none => tremove t op.1
        | some v => tinsert t op.1 v), p.2 ≠ ([] : Str) := by
      rcases hop : op.2 with _ | v
      · exact nev_tremove t op.1 ht
      · exact nev_tinsert t op.1 v ht (hb op (List.mem_cons_self _ _) v hop)
    exact ih _ hstep (fun p hp w hw => hb p (List.mem_cons_of_mem _ hp) w hw)

/-- `delete_author` as one batched record update. -/
theorem delete_author_eq (st : Trees) (a : Str) :
    delete_author st a =
      match tget st.author_book a with
      | none => .error (.AuthorNotFound a)
      | some books_v =>
        .ok { st with
          author_quote := tremove st.author_quote a,
          book_quote := (split_values_string books_v).foldl
            (fun t b => tremove t b) st.book_quote,
          book_author := (split_values_string books_v).foldl
            (fun t b => tremove t b) st.book_author,
          author_book := tremove st.author_book a } := by
  rcases h : tget st.author_book a with _ | bv <;>
    simp only [delete_author, h]

theorem nev_delete_author (st : Trees) (a : Str) (st' : Trees)
    (h : NonEmptyVals st) (hd : delete_author st a = .ok st') :
    NonEmptyVals st' := by
  rw [delete_author_eq] at hd
  rcases hab : tget st.author_book a with _ | bv
  · rw [hab] at hd; cases hd
  · rw [hab] at hd
    simp only [Except.ok.injEq] at hd
    subst hd
    obtain ⟨h1, h2, h3⟩ := h
    exact ⟨nev_tremove _ _ h1, nev_fold_tremove _ _ h2, h3⟩

theorem nev_delete_from_book (st : Trees) (b : Str) (i : Nat) (st' : Trees)
    (h : NonEmptyVals st) (hd : delete_from_book st b i = .ok st') :
    NonEmptyVals st' := by
  rw [delete_from_book] at hd
  rcases hg : tget st.book_quote b with _ | v
  · simp only [hg] at hd
    cases hd
  · simp only [hg] at hd
    rcases hs : split_indices_usize v with _ | ids
    · simp only [hs] at hd
      cases hd
    · simp only [hs] at hd
      obtain ⟨h1, h2, h3⟩ := h
      by_cases hf : ids.filter (fun j => j ≠ i) = []
      · rw [if_pos hf] at hd
        simp only [Except.ok.injEq] at hd
        subst hd
        exact ⟨h1, nev_tremove _ _ h2, h3⟩
      · rw [if_neg hf] at hd
        simp only [Except.ok.injEq] at hd
        subst hd
        exact ⟨h1, nev_tinsert _ _ _ h2 (make_indices_string_ne_nil _ hf), h3⟩

theorem nev_delete_from_author_and_book (st : Trees) (a b : Str) (i : Nat)
    (st' : Trees) (h : NonEmptyVals st)
    (hd : delete_from_author_and_book st a b i = .ok st') :
    NonEmptyVals st' := by
  rw [delete_from_author_and_book] at hd
  rcases hg : tget st.author_quote a with _ | v
  · simp only [hg] at hd
    cases hd
  · simp only [hg] at hd
    rcases hs : split_indices_usize v with _ | ids
    · simp only [hs] at hd
      cases hd
    · simp only [hs] at hd
      by_cases hf : ids.filter (fun j => j ≠ i) = []
      · rw [if_pos hf] at hd
        exact nev_delete_author st a st' h hd
      · rw [if_neg hf] at hd
        obtain ⟨h1, h2, h3⟩ := h
        refine nev_delete_from_book
          { st with author_quote :=
              (tinsert st.author_quote a
                (make_indices_string (ids.filter (fun j => j ≠ i)))) }
          b i st' ⟨?_, h2, h3⟩ hd
        exact nev_tinsert _ _ _ h1 (make_indices_string_ne_nil _ hf)

/-- C5 (amended): after every completed `add_quote`, `delete_quote`, or
`change_quote`, no author/book/tag index entry holds an empty stored
quote-id byte string (never an empty-but-present entry).  The converse
direction of the original claim — absence of a key implying its associated
quote-id sequence is empty — does not hold (see the counterexample). -/
theorem index_values_nonempty_preserved (st : Trees) (h : NonEmptyVals st) :
    (∀ q, NonEmptyVals (add_quote st q).1) ∧
    (∀ i st', delete_quote st i = .ok st' → NonEmptyVals st') ∧
    (∀ i nq st', change_quote st i nq = .ok st' → NonEmptyVals st') := by
  obtain ⟨h1, h2, h3⟩ := h
  refine ⟨?_, ?_, ?_⟩
  · intro q
    simp only [add_quote, aab_eq]
    refine ⟨?_, ?_, ?_⟩
    · exact nev_tmerge _ _ _ h1 (nat_to_string_ne_nil q.index)
    · exact nev_tmerge _ _ _ h2 (nat_to_string_ne_nil q.index)
    · exact nev_fold_tmerge q.tags _ q.index h3
  · intro i st' hd
    rw [delete_quote] at hd
    rcases hq : tget st.quote_tree i with _ | q
    · rw [remove_quote, hq] at hd; cases hd
    · rw [remove_quote, hq] at hd
      simp only at hd
      rcases hdf : delete_from_author_and_book
          { st with quote_tree := tremove st.quote_tree i } q.author q.book i
        with _ | st2
      · simp only [hdf] at hd
        cases hd
      · simp only [hdf] at hd
        have hst2 : NonEmptyVals st2 :=
          nev_delete_from_author_and_book
            { st with quote_tree := tremove st.quote_tree i } q.author q.book i
            st2 ⟨h1, h2, h3⟩ hdf
        rcases hbb : build_tag_batch st2.tag_quote q.tags i [] with _ | batch
        · simp only [hbb] at hd
          cases hd
        · simp only [hbb] at hd
          simp only [Except.ok.injEq] at hd
          subst hd
          obtain ⟨g1, g2, g3⟩ := hst2
          refine ⟨g1, g2, ?_⟩
          exact nev_apply_batch st2.tag_quote batch g3
            (build_tag_batch_ok st2.tag_quote q.tags i [] batch
              (fun p hp => by cases hp) hbb)
  · intro i nq st' hd
    rw [change_quote] at hd
    rcases hq : tget st.quote_tree i with _ | q
    · rw [get_quote, hq] at hd; cases hd
    · rw [get_quote, hq] at hd
      simp only at hd
      rcases hdf : delete_from_author_and_book st q.author q.book i
        with _ | st1
      · simp only [hdf] at hd
        cases hd
      · simp only [hdf] at hd
        have hst1 : NonEmptyVals st1 :=
          nev_delete_from_author_and_book st q.author q.book i st1
            ⟨h1, h2, h3⟩ hdf
        rcases hbb : build_tag_batch st1.tag_quote q.tags i [] with _ | batch
        · simp only [hbb] at hd
          cases hd
        · simp only [hbb] at hd
          simp only [Except.ok.injEq] at hd
          subst hd
          obtain ⟨g1, g2, g3⟩ := hst1
          have htag : ∀ p ∈ apply_batch st1.tag_quote batch,
              p.2 ≠ ([] : Str) :=
            nev_apply_batch st1.tag_quote batch g3
              (build_tag_batch_ok st1.tag_quote q.tags i [] batch
                (fun p hp => by cases hp) hbb)
          simp only [aab_eq]
          refine ⟨?_, ?_, ?_⟩
          · exact nev_tmerge _ _ _ g1 (nat_to_string_ne_nil i)
          · exact nev_tmerge _ _ _ g2 (nat_to_string_ne_nil i)
          · exact nev_fold_tmerge nq.tags _ i htag

/-- Quote 1 by author [65], book [66]. -/
def c5q1 : Quote :=
  { index := 1, book := [66], author := [65], tags := [],
    date := { year := 2020, month := 1, day := 1, secs := 0 }, text := [] }

/-- Quote 2 by a different author [67], same book title [66]. -/
def c5q2 : Quote :=
  { index := 2, book := [66], author := [67], tags := [],
    date := { year := 2020, month := 1, day := 2, secs := 0 }, text := [] }

/-- Store holding quotes 1 and 2: two authors sharing one book title. -/
def c5st : Trees := (add_quote (add_quote emptyTrees c5q1).1 c5q2).1

/-- The store after deleting quote 1 from `c5st`. -/
def c5out : Trees := ((delete_quote c5st 1).toOption).getD emptyTrees

/-- C5 counterexample: after a completed `delete_quote`, the book key [66] is
absent from book→quote-ids even though quote 2 with that book is still in the
record store — absence of a key does not imply its associated quote-id
sequence is empty.  (Deleting author [65]'s last quote cascades and removes
every book in that author's list, including the title shared with author
[67].) -/
theorem delete_quote_drops_shared_book :
    delete_quote c5st 1 = .ok c5out ∧
    tget c5out.quote_tree 2 = some c5q2 ∧
    c5q2.book = [66] ∧
    tget c5out.book_quote [66] = none := by decide

/-- Witness for the C5 preservation theorem: `c5st` satisfies the invariant
and so does the result of deleting quote 1 from it. -/
theorem index_values_nonempty_preserved_witness : NonEmptyVals c5out :=
  (index_values_nonempty_preserved c5st
    (by refine ⟨?_, ?_, ?_⟩ <;> decide)).2.1 1 c5out (by decide)

/-! ## The delete cascade (claim C4) -/

/-- Effect of `delete_from_author_and_book` on the four author/book trees:
the author's decoded list loses `i`; an emptied author cascades through
`delete_author` (removing the author's entries and every book in the
author's book list), while a surviving author keeps its book list and only
the given book's list loses `i`, the book being dropped entirely when its
list empties. -/
theorem dfab_spec (S : Trees) (a b : Str) (i : Nat) (S' : Trees)
    (va : Str) (oldA : List Nat)
    (hva : tget S.author_quote a = some va)
    (hA : split_indices_usize va = some oldA)
    (hd : delete_from_author_and_book S a b i = .ok S') :
    ((oldA.filter (fun j => j ≠ i) = []) →
      tget S'.author_quote a = none ∧
      tget S'.author_book a = none ∧
      (∀ vb, tget S.author_book a = some vb →
        ∀ bk ∈ split_values_string vb,
          tget S'.book_quote bk = none ∧ tget S'.book_author bk = none)) ∧
    ((oldA.filter (fun j => j ≠ i) ≠ []) →
      tget S'.author_quote a =
        some (make_indices_string (oldA.filter (fun j => j ≠ i))) ∧
      S'.author_book = S.author_book ∧
      (∀ vb oldB, tget S.book_quote b = some vb →
        split_indices_usize vb = some oldB →
        ((oldB.filter (fun j => j ≠ i) = [] →
            tget S'.book_quote b = none ∧ tget S'.book_author b = none) ∧
         (oldB.filter (fun j => j ≠ i) ≠ [] →
            tget S'.book_quote b =
              some (make_indices_string (oldB.filter (fun j => j ≠ i))))))) := by
  rw [delete_from_author_and_book] at hd
  simp only [hva] at hd
  simp only [hA] at hd
  by_cases hf : oldA.filter (fun j => j ≠ i) = []
  · rw [if_pos hf] at hd
    refine ⟨?_, fun hc => absurd hf hc⟩
    intro _
    rw [delete_author_eq] at hd
    rcases hab : tget S.author_book a with _ | bv
    · rw [hab] at hd; cases hd
    · rw [hab] at hd
      simp only [Except.ok.injEq] at hd
      subst hd
      refine ⟨tget_tremove_self _ _, tget_tremove_self _ _, ?_⟩
      intro vb hvb bk hbk
      obtain rfl : bv = vb := Option.some.inj hvb
      exact ⟨tget_foldl_tremove_mem _ _ _ hbk, tget_foldl_tremove_mem _ _ _ hbk⟩
  · rw [if_neg hf] at hd
    refine ⟨fun hc => absurd hc hf, ?_⟩
    intro _
    simp only [delete_from_book] at hd
    rcases hvb : tget S.book_quote b with _ | vb
    · simp only [hvb] at hd
      cases hd
    · simp only [hvb] at hd
      rcases hsb : split_indices_usize vb with _ | oldB
      · simp only [hsb] at hd
        cases hd
      · simp only [hsb] at hd
        by_cases hfb : oldB.filter (fun j => j ≠ i) = []
        · rw [if_pos hfb] at hd
          simp only [Except.ok.injEq] at hd
          subst hd
          refine ⟨tget_tinsert_self _ _ _, rfl, ?_⟩
          intro vb2 oldB2 hvb2 hsb2
          obtain rfl : vb = vb2 := Option.some.inj hvb2
          obtain rfl : oldB = oldB2 := Option.some.inj (hsb.symm.trans hsb2)
          exact ⟨fun _ => ⟨tget_tremove_self _ _, tget_tremove_self _ _⟩,
            fun hc => absurd hfb hc⟩
        · rw [if_neg hfb] at hd
          simp only [Except.ok.injEq] at hd
          subst hd
          refine ⟨tget_tinsert_self _ _ _, rfl, ?_⟩
          intro vb2 oldB2 hvb2 hsb2
          obtain rfl : vb = vb2 := Option.some.inj hvb2
          obtain rfl : oldB = oldB2 := Option.some.inj (hsb.symm.trans hsb2)
          exact ⟨fun hc => absurd hc hfb,
            fun _ => tget_tinsert_self _ _ _⟩

/-- C4: `delete_quote` removes the identifier from the quote's author's list;
if that list empties, the author's entries and every book in the author's
book list are removed; otherwise the author's list is rewritten without the
identifier, the author's book list survives unchanged, and the quote's book
loses the identifier — the book's two entries being removed entirely exactly
when its list empties. -/
theorem delete_quote_author_book_spec (st st' : Trees) (i : Nat) (q : Quote)
    (va : Str) (oldA : List Nat)
    (hq : tget st.quote_tree i = some q)
    (hva : tget st.author_quote q.author = some va)
    (hA : split_indices_usize va = some oldA)
    (hdel : delete_quote st i = .ok st') :
    ((oldA.filter (fun j => j ≠ i) = []) →
      tget st'.author_quote q.author = none ∧
      tget st'.author_book q.author = none ∧
      (∀ vb, tget st.author_book q.author = some vb →
        ∀ bk ∈ split_values_string vb,
          tget st'.book_quote bk = none ∧ tget st'.book_author bk = none)) ∧
    ((oldA.filter (fun j => j ≠ i) ≠ []) →
      tget st'.author_quote q.author =
        some (make_indices_string (oldA.filter (fun j => j ≠ i))) ∧
      tget st'.author_book q.author = tget st.author_book q.author ∧
      (∀ vb oldB, tget st.book_quote q.book = some vb →
        split_indices_usize vb = some oldB →
        ((oldB.filter (fun j => j ≠ i) = [] →
            tget st'.book_quote q.book = none ∧
            tget st'.book_author q.book = none) ∧
         (oldB.filter (fun j => j ≠ i) ≠ [] →
            tget st'.book_quote q.book =
              some (make_indices_string (oldB.filter (fun j => j ≠ i))))))) := by
  rw [delete_quote, remove_quote, hq] at hdel
  simp only at hdel
  rcases hdf : delete_from_author_and_book
      { st with quote_tree := tremove st.quote_tree i } q.author q.book i
    with _ | st2
  · simp only [hdf] at hdel
    cases hdel
  · simp only [hdf] at hdel
    rcases hbb : build_tag_batch st2.tag_quote q.tags i [] with _ | batch
    · simp only [hbb] at hdel
      cases hdel
    · simp only [hbb] at hdel
      simp only [Except.ok.injEq] at hdel
      subst hdel
      have hspec := dfab_spec { st with quote_tree := tremove st.quote_tree i }
        q.author q.book i st2 va oldA hva hA hdf
      refine ⟨?_, ?_⟩
      · intro hf
        obtain ⟨h1, h2, h3⟩ := hspec.1 hf
        exact ⟨h1, h2, h3⟩
      · intro hf
        obtain ⟨h1, h2, h3⟩ := hspec.2 hf
        exact ⟨h1, congrArg (fun tr => tget tr q.author) h2, h3⟩

/-- Quote 1 for the C4 witness: author [65], book [66]. -/
def c4q1 : Quote :=
  { index := 1, book := [66], author := [65], tags := [],
    date := { year := 2020, month := 3, day := 1, secs := 0 }, text := [] }

/-- Quote 2 for the C4 witness: same author [65] and book [66]. -/
def c4q2 : Quote :=
  { index := 2, book := [66], author := [65], tags := [],
    date := { year := 2020, month := 3, day := 2, secs := 0 }, text := [] }

/-- Store holding quotes 1 and 2, both by author [65] in book [66]. -/
def c4st : Trees := (add_quote (add_quote emptyTrees c4q1).1 c4q2).1

/-- The store after deleting quote 1 from `c4st`. -/
def c4out : Trees := ((delete_quote c4st 1).toOption).getD emptyTrees

/-- Witness for C4: deleting quote 1 leaves the author's and book's lists
holding exactly the encoding of [2]. -/
theorem delete_quote_author_book_spec_witness :
    tget c4out.author_quote [65] = some (make_indices_string [2]) ∧
    tget c4out.book_quote [66] = some (make_indices_string [2]) := by
  have h := delete_quote_author_book_spec c4st c4out 1 c4q1 [49, 59, 50] [1, 2]
    (by decide) (by decide) (by decide) (by decide)
  obtain ⟨h1, h2, h3⟩ := h.2 (by decide)
  obtain ⟨hb1, hb2⟩ := h3 [49, 59, 50] [1, 2] (by decide) (by decide)
  exact ⟨h1, hb2 (by decide)⟩

/-! ## `change_quote` does not re-sort (claim C1) -/

/-- Quote 1 for the C1 scenario: author [65]. -/
def c1q1 : Quote :=
  { index := 1, book := [66, 97], author := [65], tags := [],
    date := { year := 2020, month := 4, day := 1, secs := 0 }, text := [] }

/-- Quote 2 for the C1 scenario: author [66]. -/
def c1q2 : Quote :=
  { index := 2, book := [66, 98], author := [66], tags := [],
    date := { year := 2020, month := 4, day := 2, secs := 0 }, text := [] }

/-- The new version of quote 1, reattributed to author [66] and its book. -/
def c1q1n : Quote :=
  { index := 1, book := [66, 98], author := [66], tags := [],
    date := { year := 2020, month := 4, day := 1, secs := 0 }, text := [] }

/-- Store holding quote 1 (author [65]) and quote 2 (author [66]). -/
def c1st : Trees := (add_quote (add_quote emptyTrees c1q1).1 c1q2).1

/-- The store after changing quote 1 to `c1q1n`. -/
def c1out : Trees := ((change_quote c1st 1 c1q1n).toOption).getD emptyTrees

/-- C1: after a completed `change_quote` on an existing identifier, the new
author's quote-id list decodes to [2, 1] — merge-append order, not ascending
identifier order — and likewise the new book's list.  `change_quote` never
re-sorts: the source's `set_sorted` helper is dead code with no caller. -/
theorem change_quote_leaves_unsorted_list :
    change_quote c1st 1 c1q1n = .ok c1out ∧
    (tget c1out.author_quote [66]).bind split_indices_usize = some [2, 1] ∧
    (tget c1out.book_quote [66, 98]).bind split_indices_usize = some [2, 1] ∧
    ¬ List.Sorted (· ≤ ·) [2, 1] := by
  refine ⟨by decide, by decide, by decide, by decide⟩

end Quoth
